import Mathlib

/-!
# Verification of the auto-dubbing Timeline Alignment & Resynthesis Engine

A shallow embedding (on `ℚ`, `ℤ`, `String`, `List`) of the core timeline
logic of the auto-dubbing pipeline:

* `align_speaker_labels` (src/auto_dubbing/transcription.py): merging Whisper
  text segments with diarization speaker segments by maximal temporal overlap;
* `merge_segments` (transcription.py): coalescing adjacent same-speaker
  segments separated by a small gap;
* `translate` (transcription.py): the per-utterance retry/backoff policy;
* `time_stretch_vc` (tts.py) and `time_stretch` (time_stretch.py): the
  duration-fit ratio computation, clamping and (for the legacy path) trimming;
* `combine_audio` (mixing.py): overlaying per-utterance clips onto the
  background track;
* the per-speaker running-counter keying shared by `split_audio_by_utterance`,
  `tts`, `combine_audio` and the grouping of `time_stretch_vc`.

Times are embedded as exact rationals (seconds), audio as lists of integer
samples (one slot per millisecond of the pydub representation), Python's
`int()` as truncation toward zero and Python's `round()` as round-half-to-even.
-/

namespace AutoDubbing

/-- Python `int(q)` on a rational: truncation toward zero. -/
def pyInt (q : ℚ) : ℤ := if 0 ≤ q then ⌊q⌋ else ⌈q⌉

/-- Python `round(q)` on a rational: round half to even (banker's rounding). -/
def pyRound (q : ℚ) : ℤ :=
  if q - ⌊q⌋ < 1/2 then ⌊q⌋
  else if 1/2 < q - ⌊q⌋ then ⌊q⌋ + 1
  else if 2 ∣ ⌊q⌋ then ⌊q⌋ else ⌊q⌋ + 1

/-- Python's `lst[:n]` slice (pydub `AudioSegment` slicing from the start):
for `0 ≤ n` it keeps the first `n` items, for `n < 0` it drops the last `-n`. -/
def pySliceTo {α : Type} (l : List α) (n : ℤ) : List α :=
  if 0 ≤ n then l.take n.toNat else l.take (l.length - (-n).toNat)

/-! ## Data model

A Whisper text segment (`whisper.json` entries), a diarization segment
(`diarization.json` entries, keys `Speaker`/`Start`/`End`) and an utterance of
the aligned transcript (`transcript.json` / `transcript_con.json` entries).
Python's `end` is called `stop` here because `end` is a Lean keyword. -/

structure WSeg where
  start : ℚ
  stop : ℚ
  text : String
deriving Repr, DecidableEq

structure DSeg where
  speaker : String
  start : ℚ
  stop : ℚ
deriving Repr, DecidableEq

structure Utt where
  start : ℚ
  stop : ℚ
  speaker : String
  text : String
deriving Repr, DecidableEq

/-! ## Timeline Aligner: `align_speaker_labels` (transcription.py) -/

/-- `max(0, min(w_end, a_end) - max(w_start, a_start))` — the temporal overlap
computed in the inner loop of `align_speaker_labels`. -/
def overlapLen (w : WSeg) (a : DSeg) : ℚ :=
  max 0 (min w.stop a.stop - max w.start a.start)

/-- The inner scan of `align_speaker_labels`: starting from `max_overlap = 0`
and `best_a_seg = None`, replace the best candidate whenever the current
overlap strictly exceeds the maximum so far. -/
def scanBest (w : WSeg) : List DSeg → ℚ → Option DSeg → Option DSeg
  | [], _, best => best
  | a :: rest, maxOv, best =>
      if maxOv < overlapLen w a then scanBest w rest (overlapLen w a) (some a)
      else scanBest w rest maxOv best

/-- The diarization segment `align_speaker_labels` selects for a text
segment (`best_a_seg`, with `best_speaker = best_a_seg["Speaker"]`). -/
def bestMatch (w : WSeg) (ds : List DSeg) : Option DSeg :=
  scanBest w ds 0 none

/-- One iteration of the outer loop of `align_speaker_labels`: the segment is
emitted only when `best_speaker and best_a_seg` is truthy in Python, i.e. when
a best segment exists *and* its speaker label is a non-empty string; the first
emitted utterance's start is widened to the matched diarization start. -/
def alignOne (isFirst : Bool) (w : WSeg) (ds : List DSeg) : Option Utt :=
  match bestMatch w ds with
  | some a =>
      if a.speaker = "" then none
      else some { start := if isFirst then a.start else w.start,
                  stop := w.stop, speaker := a.speaker, text := w.text }
  | none => none

/-- The outer loop of `align_speaker_labels`, accumulating the `aligned` list
and the `discarded` counter. -/
def alignFold (ds : List DSeg) : List WSeg → List Utt → ℕ → List Utt × ℕ
  | [], acc, disc => (acc, disc)
  | w :: rest, acc, disc =>
      match alignOne acc.isEmpty w ds with
      | some u => alignFold ds rest (acc ++ [u]) disc
      | none => alignFold ds rest acc (disc + 1)

/-- `align_speaker_labels` (transcription.py, lines 161–223), as the pure map
from the two input segment lists to the aligned utterance list and the
discard count. -/
def align_speaker_labels (ws : List WSeg) (ds : List DSeg) : List Utt × ℕ :=
  alignFold ds ws [] 0

/-- Predicate for the `else: discarded += 1` branch of the outer loop: no
candidate was found, or the found candidate's speaker label is Python-falsy
(the empty string). -/
def discardP (ds : List DSeg) (w : WSeg) : Bool :=
  match bestMatch w ds with
  | none => true
  | some a => a.speaker = ""

/-! ## Segment Merger: `merge_segments` (transcription.py) -/

/-- The merging scan of `merge_segments`: `prev` is the accumulator; a
subsequent segment with the same speaker and a start-to-end gap strictly below
`max_gap` is merged into it (extending `end`, joining the texts with
`rstrip() + " " + lstrip()`); otherwise the accumulator is flushed. -/
def mergeLoop (g : ℚ) : Utt → List Utt → List Utt
  | prev, [] => [prev]
  | prev, curr :: rest =>
      if curr.speaker = prev.speaker ∧ curr.start - prev.stop < g then
        mergeLoop g { prev with stop := curr.stop, text := prev.text.trimRight ++ " " ++ curr.text.trimLeft } rest
      else prev :: mergeLoop g curr rest

/-- `merge_segments` (transcription.py, lines 277–318). The Python code seeds
the accumulator with `segments[0]`, which raises `IndexError` on an empty
list; that error path is modelled by `none`. -/
def merge_segments (g : ℚ) : List Utt → Option (List Utt)
  | [] => none
  | s :: rest => some (mergeLoop g s rest)

/-! ## Duration Fitter: `time_stretch_vc` (tts.py) and `time_stretch`
(time_stretch.py) -/

/-- `MIN_RATIO` of `time_stretch_vc`. -/
def minRatio : ℚ := 3/4

/-- `MAX_RATIO` of `time_stretch_vc`. -/
def maxRatio : ℚ := 5/4

/-- `clamped_ratio = max(MIN_RATIO, min(MAX_RATIO, ratio))` in
`time_stretch_vc`. -/
def clampRatio (r : ℚ) : ℚ := max minRatio (min maxRatio r)

/-- The `if clamped_ratio != ratio: logger.warning(...)` condition of
`time_stretch_vc`: a warning is logged exactly when clamping changed the
ratio; the function never raises on an out-of-range ratio. -/
def stretchWarn (r : ℚ) : Bool := clampRatio r ≠ r

/-- `target_ms = int((utterance["end"] - utterance["start"]) * 1000)` in
`time_stretch_vc`. -/
def targetMs (u : Utt) : ℤ := pyInt ((u.stop - u.start) * 1000)

/-- Modelled from the spec: the external stretch operation
(`audiostretchy.stretch.stretch_audio`, not part of this repository) scales a
clip's duration by the given ratio — the spec's "time-stretch ratio:
multiplicative factor applied to an audio clip's duration". -/
def stretchedLen (origMs ratio : ℚ) : ℚ := origMs * ratio

/-- Duration of the clip written by `time_stretch_vc` (tts.py, lines 156–233)
for one utterance: the stretch output with the clamped ratio is exported
as-is — there is no trimming step in `time_stretch_vc`. -/
def time_stretch_vc_len (tgt origMs : ℚ) : ℚ :=
  stretchedLen origMs (clampRatio (tgt / origMs))

/-- Duration of the clip written by the legacy `time_stretch`
(time_stretch.py, lines 6–61) for one utterance: the ratio
`original_length / tts_duration` is *not* clamped, but the stretch result is
hard-trimmed by `stretched[:original_length]` (so, for a non-negative target,
its duration is the minimum of the stretched duration and the target). -/
def time_stretch_len (originalLen ttsDur : ℚ) : ℚ :=
  min (stretchedLen ttsDur (originalLen / ttsDur)) originalLen

/-! ## Timeline Compositor: `combine_audio` (mixing.py)

Waveforms are lists of integer samples (one slot per millisecond); pydub's
`overlay` adds the clip's samples onto the background with saturating 16-bit
arithmetic (`audioop.add`), keeping the background's length. Clips are
supplied as a map from the `(speaker, per-speaker index)` filename key to the
clip's samples; `none` models a missing `tts_vc` file, which `combine_audio`
logs and skips. -/

/-- Saturating 16-bit addition, the per-sample operation of pydub's
`overlay`. -/
def satAdd16 (a b : ℤ) : ℤ := max (-(2^15)) (min (2^15 - 1) (a + b))

/-- `background.overlay(clip, position=pos)`: sample `i` of the result is
`satAdd16 bg[i] clip[i - pos]` when `pos ≤ i < pos + clip.length`, and
`bg[i]` otherwise; the result has the background's length. -/
def overlayAt (bg clip : List ℤ) (pos : ℤ) : List ℤ :=
  (List.range bg.length).map (fun (i : ℕ) =>
    if pos ≤ (i : ℤ) ∧ (i : ℤ) < pos + clip.length then
      satAdd16 (bg.getD i 0) (clip.getD ((i : ℤ) - pos).toNat 0)
    else bg.getD i 0)

/-- One overlay work item: the (already truncated) clip samples and the
absolute position. -/
def overlayAll (bg : List ℤ) (ps : List (List ℤ × ℤ)) : List ℤ :=
  ps.foldl (fun fin p => overlayAt fin p.1 p.2) bg

/-- The placement `combine_audio` computes for one utterance:
`start = int(utt["start"] * 1000)`,
`duration = int((utt["end"] - utt["start"]) * 1000)`, and the per-speaker
running-counter index used in the clip filename. -/
structure Placement where
  speaker : String
  idx : ℕ
  pos : ℤ
  dur : ℤ
deriving Repr, DecidableEq

/-- The loop of `combine_audio` restricted to what it computes per utterance
(speaker key, per-speaker index, overlay position, truncation duration),
with the `speaker_counts` dictionary as a function. -/
def combineLoop : List Utt → (String → ℕ) → List Placement
  | [], _ => []
  | u :: rest, counts =>
      let idx := counts u.speaker + 1
      { speaker := u.speaker, idx := idx, pos := pyInt (u.start * 1000),
        dur := pyInt ((u.stop - u.start) * 1000) } ::
        combineLoop rest (fun s => if s = u.speaker then idx else counts s)

/-- The placements of all utterances of a transcript, in transcript order
(initial `speaker_counts = {}`). -/
def combinePlacements (ts : List Utt) : List Placement :=
  combineLoop ts (fun _ => 0)

/-- The full loop of `combine_audio` (mixing.py, lines 193–247): for each
utterance, look up the VC clip for the `(speaker, index)` key; if it is
missing, log and skip; otherwise truncate it with `[:duration]` and overlay
it at `position=start` onto the running mix. -/
def combineAudioLoop (clips : String → ℕ → Option (List ℤ)) :
    List Utt → (String → ℕ) → List ℤ → List ℤ
  | [], _, fin => fin
  | u :: rest, counts, fin =>
      let idx := counts u.speaker + 1
      let counts' := fun s => if s = u.speaker then idx else counts s
      match clips u.speaker idx with
      | none => combineAudioLoop clips rest counts' fin
      | some c =>
          combineAudioLoop clips rest counts'
            (overlayAt fin (pySliceTo c (pyInt ((u.stop - u.start) * 1000)))
              (pyInt (u.start * 1000)))

/-- `combine_audio` as the pure map from the clip store, the background
waveform and the transcript to the final mix. -/
def combine_audio (clips : String → ℕ → Option (List ℤ)) (bg : List ℤ)
    (ts : List Utt) : List ℤ :=
  combineAudioLoop clips ts (fun _ => 0) bg

/-- The overlay work items `combine_audio` actually performs, in transcript
order: for each utterance whose clip exists, the truncated clip together with
its position. -/
def resolvedLoop (clips : String → ℕ → Option (List ℤ)) :
    List Utt → (String → ℕ) → List (List ℤ × ℤ)
  | [], _ => []
  | u :: rest, counts =>
      let idx := counts u.speaker + 1
      let counts' := fun s => if s = u.speaker then idx else counts s
      match clips u.speaker idx with
      | none => resolvedLoop clips rest counts'
      | some c =>
          (pySliceTo c (pyInt ((u.stop - u.start) * 1000)),
            pyInt (u.start * 1000)) :: resolvedLoop clips rest counts'

/-- The resolved overlay list of `combine_audio` for a transcript. -/
def resolvedOverlays (clips : String → ℕ → Option (List ℤ)) (ts : List Utt) :
    List (List ℤ × ℤ) :=
  resolvedLoop clips ts (fun _ => 0)

/-- `f"{idx:02d}"`: two-digit zero-padded index used in clip filenames. -/
def pad2 (n : ℕ) : String := if n < 10 then "0" ++ toString n else toString n

/-- The clip path `combine_audio` reads for key `(speaker, idx)`:
`speaker_audio/speaker_{speaker}/tts_vc/{speaker}_utt_{idx:02d}_vc.wav` —
the voice-converted but *unstretched* clip. -/
def combineVcPath (s : String) (i : ℕ) : String :=
  "speaker_audio/speaker_" ++ s ++ "/tts_vc/" ++ s ++ "_utt_" ++ pad2 i
    ++ "_vc.wav"

/-- The output path `time_stretch_vc` writes for key `(speaker, idx)`:
`speaker_audio/speaker_{speaker}/tts_vc_stretched/{speaker}_utt_{idx:02d}_vc_stretched.wav`. -/
def stretchedOutPath (s : String) (i : ℕ) : String :=
  "speaker_audio/speaker_" ++ s ++ "/tts_vc_stretched/" ++ s ++ "_utt_"
    ++ pad2 i ++ "_vc_stretched.wav"

/-! ## Translation stage: `translate` (transcription.py)

The DeepL call is an external collaborator; it is modelled as an oracle giving
each attempt's outcome. The per-item retry loop (`max_retries = 5`,
`delay = 1`, doubling on each rate limit) is embedded with the list of
performed waits made explicit. -/

/-- Outcome of one `translator.translate_text` call: success,
`TooManyRequestsException`, or another `DeepLException`. -/
inductive ApiResult where
  | success (t : String)
  | rateLimited
  | apiError
deriving Repr, DecidableEq

/-- A transcript utterance as `translate` sees it: the source `text` and the
optional `translation` field (absent before the stage runs). -/
structure TUtt where
  text : String
  translation : Option String
deriving Repr, DecidableEq

/-- The retry loop body of `translate` for one utterance:
`for attempt in range(max_retries)` with `time.sleep(delay); delay *= 2` on a
rate limit, `break` leaving the field untouched on another API error, and the
`for ... else` arm recording `""` when all attempts are rate-limited. Returns
the new value of the `translation` field (relative to `old`) and the list of
waits performed. -/
def translateLoop (oracle : ℕ → ApiResult) (old : Option String) :
    ℕ → ℕ → ℕ → Option String × List ℕ
  | _, 0, _ => (some "", [])
  | attempt, fuel + 1, delay =>
      match oracle attempt with
      | .success t => (some t, [])
      | .apiError => (old, [])
      | .rateLimited =>
          let r := translateLoop oracle old (attempt + 1) fuel (delay * 2)
          (r.1, delay :: r.2)

/-- `max_retries` of `translate`. -/
def maxRetries : ℕ := 5

/-- The translation recorded for one utterance with non-empty text, together
with the waits performed (initial `delay = 1`). -/
def translateItem (oracle : ℕ → ApiResult) (old : Option String) :
    Option String × List ℕ :=
  translateLoop oracle old 0 maxRetries 1

/-- The `for utterance in transcript` loop of `translate`, with the position
of the utterance made explicit so each item can have its own oracle:
utterances with empty text are skipped (`if not text: continue`), every other
utterance gets the retried translation result. -/
def translateGo (oracle : ℕ → ℕ → ApiResult) : ℕ → List TUtt → List TUtt
  | _, [] => []
  | i, u :: rest =>
      (if u.text = "" then u
       else { u with translation := (translateItem (oracle i) u.translation).1 })
        :: translateGo oracle (i + 1) rest

/-- `translate` (transcription.py, lines 226–274) over the whole transcript:
every utterance of the input is processed (the batch never aborts), each one
independently of the others. -/
def translate (oracle : ℕ → ℕ → ApiResult) (ts : List TUtt) : List TUtt :=
  translateGo oracle 0 ts

/-! ## Cross-stage keying

`split_audio_by_utterance` (tts.py, lines 236–288), `tts` (tts.py, lines
74–137) and `combine_audio` (mixing.py, lines 193–247) each assign an
utterance its per-speaker index with the running-counter pattern
`speaker_counts[speaker] = speaker_counts.get(speaker, 0) + 1`;
`time_stretch_vc` (tts.py, lines 156–233) instead groups the transcript by
speaker (a Python dict keyed by first appearance, each group in transcript
order) and enumerates each group starting at 1. Each stage is embedded as the
association list from the `(speaker, index)` filename key to the utterance it
denotes. -/

/-- Keying of `split_audio_by_utterance`: running counter over the transcript. -/
def splitAssignLoop : List Utt → (String → ℕ) → List ((String × ℕ) × Utt)
  | [], _ => []
  | u :: rest, counts =>
      let idx := counts u.speaker + 1
      ((u.speaker, idx), u) ::
        splitAssignLoop rest (fun s => if s = u.speaker then idx else counts s)

/-- The `(speaker, index) ↦ utterance` keying of `split_audio_by_utterance`. -/
def splitAssign (ts : List Utt) : List ((String × ℕ) × Utt) :=
  splitAssignLoop ts (fun _ => 0)

/-- Keying of `tts`: the same running-counter pattern, embedded from its own
loop. -/
def ttsAssignLoop : List Utt → (String → ℕ) → List ((String × ℕ) × Utt)
  | [], _ => []
  | u :: rest, counts =>
      let idx := counts u.speaker + 1
      ((u.speaker, idx), u) ::
        ttsAssignLoop rest (fun s => if s = u.speaker then idx else counts s)

/-- The `(speaker, index) ↦ utterance` keying of `tts`. -/
def ttsAssign (ts : List Utt) : List ((String × ℕ) × Utt) :=
  ttsAssignLoop ts (fun _ => 0)

/-- Keying of `combine_audio`: the same running-counter pattern, embedded
from its own loop. -/
def combineAssignLoop : List Utt → (String → ℕ) → List ((String × ℕ) × Utt)
  | [], _ => []
  | u :: rest, counts =>
      let idx := counts u.speaker + 1
      ((u.speaker, idx), u) ::
        combineAssignLoop rest (fun s => if s = u.speaker then idx else counts s)

/-- The `(speaker, index) ↦ utterance` keying of `combine_audio`. -/
def combineAssign (ts : List Utt) : List ((String × ℕ) × Utt) :=
  combineAssignLoop ts (fun _ => 0)

/-- The speakers of the transcript in order of first appearance — the key
order of the `by_speaker` dict built with `setdefault` in `time_stretch_vc`. -/
def speakersInOrder (ts : List Utt) : List String :=
  ts.foldl (fun acc u => if u.speaker ∈ acc then acc else acc ++ [u.speaker]) []

/-- One speaker's utterances in transcript order — the `by_speaker[speaker]`
list of `time_stretch_vc`. -/
def bySpeaker (ts : List Utt) (s : String) : List Utt :=
  ts.filter (fun u => u.speaker = s)

/-- The `(speaker, index) ↦ utterance` keying of `time_stretch_vc`:
`for idx, utterance in enumerate(utts, start=1)` within each speaker group. -/
def stretchAssign (ts : List Utt) : List ((String × ℕ) × Utt) :=
  (speakersInOrder ts).flatMap (fun s =>
    (List.enumFrom 1 (bySpeaker ts s)).map (fun p => ((s, p.1), p.2)))

/-! ## Lemmas about the Segment Merger -/

/-- Two segments that `merge_segments` would *not* merge when adjacent:
different speakers, or a gap of at least the threshold. -/
def noMergeRel (g : ℚ) (a b : Utt) : Prop :=
  ¬(b.speaker = a.speaker ∧ b.start - a.stop < g)

theorem mergeLoop_head (g : ℚ) :
    ∀ (l : List Utt) (prev : Utt), ∃ h t, mergeLoop g prev l = h :: t ∧
      h.speaker = prev.speaker ∧ h.start = prev.start := by
  intro l
  induction l with
  | nil => intro prev; exact ⟨prev, [], rfl, rfl, rfl⟩
  | cons curr rest ih =>
      intro prev
      by_cases hc : curr.speaker = prev.speaker ∧ curr.start - prev.stop < g
      · rw [mergeLoop, if_pos hc]
        obtain ⟨h, t, heq, hs, hst⟩ := ih _
        exact ⟨h, t, heq, hs, hst⟩
      · rw [mergeLoop, if_neg hc]
        exact ⟨prev, mergeLoop g curr rest, rfl, rfl, rfl⟩

theorem mergeLoop_chain (g : ℚ) :
    ∀ (l : List Utt) (prev : Utt),
      List.Chain' (noMergeRel g) (mergeLoop g prev l) := by
  intro l
  induction l with
  | nil => intro prev; simp [mergeLoop]
  | cons curr rest ih =>
      intro prev
      by_cases hc : curr.speaker = prev.speaker ∧ curr.start - prev.stop < g
      · rw [mergeLoop, if_pos hc]; exact ih _
      · rw [mergeLoop, if_neg hc]
        obtain ⟨h, t, heq, hs, hst⟩ := mergeLoop_head g rest curr
        rw [heq, List.chain'_cons]
        refine ⟨?_, heq ▸ ih curr⟩
        intro hcontra
        exact hc ⟨hs ▸ hcontra.1, hst ▸ hcontra.2⟩

theorem mergeLoop_stable (g : ℚ) :
    ∀ (l : List Utt) (prev : Utt),
      List.Chain' (noMergeRel g) (prev :: l) → mergeLoop g prev l = prev :: l := by
  intro l
  induction l with
  | nil => intro prev _; rfl
  | cons curr rest ih =>
      intro prev hch
      rw [List.chain'_cons] at hch
      rw [mergeLoop, if_neg hch.1]
      rw [ih curr hch.2]

/-- C5: re-running the Segment Merger on its own output, with the same gap
threshold, yields an identical list: every pair of adjacent output segments
fails the merge condition, so the second run only copies the list. -/
theorem C5_merge_idempotent (g : ℚ) (xs ys : List Utt) (hne : xs ≠ [])
    (hsorted : List.Chain' (fun a b => a.start ≤ b.start) xs)
    (h : merge_segments g xs = some ys) : merge_segments g ys = some ys := by
  match xs, hne with
  | x :: rest, _ =>
    rw [merge_segments] at h
    obtain ⟨h0, t, heq, _, _⟩ := mergeLoop_head g rest x
    have hys : ys = h0 :: t := by
      injection h with h'
      rw [← h', heq]
    have hchain : List.Chain' (noMergeRel g) (h0 :: t) := by
      rw [← heq]
      exact mergeLoop_chain g rest x
    rw [hys, merge_segments, mergeLoop_stable g t h0 hchain]

theorem C5_witness :
    merge_segments (9/20) [(⟨0, 1, "A", "a"⟩ : Utt)]
      = some [(⟨0, 1, "A", "a"⟩ : Utt)] :=
  C5_merge_idempotent (9/20) [⟨0, 1, "A", "a"⟩] [⟨0, 1, "A", "a"⟩]
    (by simp) (by simp) rfl

/-- C6 counterexample: on the empty list the Merger takes the error path
(`segments[0]` raises `IndexError`, modelled by `none`) instead of
special-casing the input. -/
theorem C6_counterexample :
    merge_segments (9/20) ([] : List Utt) = none := rfl

/-- C6 (amended): on an empty input list `merge_segments` does *not*
special-case the input: `prev = segments[0]` raises `IndexError` (the `none`
branch of the model) for every gap threshold. -/
theorem C6_amended (g : ℚ) : merge_segments g ([] : List Utt) = none := rfl

/-- C7: for positive `target_ms` and `orig_ms`, the output ratio of
`time_stretch_vc` is the raw ratio clamped into `[3/4, 5/4]`; a raw ratio
already in range is returned unchanged; the clamp is reported through the
warning flag (set exactly when the ratio changed), never through an error. -/
theorem C7_ratio_clamp (target orig : ℤ) (ht : 0 < target) (ho : 0 < orig) :
    minRatio ≤ clampRatio ((target : ℚ) / (orig : ℚ))
    ∧ clampRatio ((target : ℚ) / (orig : ℚ)) ≤ maxRatio
    ∧ (minRatio ≤ (target : ℚ) / (orig : ℚ) → (target : ℚ) / (orig : ℚ) ≤ maxRatio →
        clampRatio ((target : ℚ) / (orig : ℚ)) = (target : ℚ) / (orig : ℚ))
    ∧ (stretchWarn ((target : ℚ) / (orig : ℚ)) = true ↔
        clampRatio ((target : ℚ) / (orig : ℚ)) ≠ (target : ℚ) / (orig : ℚ)) := by
  refine ⟨le_max_left _ _, ?_, ?_, ?_⟩
  · exact max_le (by norm_num [minRatio, maxRatio]) (min_le_left _ _)
  · intro h1 h2
    rw [clampRatio, min_eq_right h2, max_eq_right h1]
  · simp [stretchWarn]

theorem C7_witness :
    clampRatio (((1000 : ℤ) : ℚ) / ((2000 : ℤ) : ℚ)) ≤ maxRatio :=
  (C7_ratio_clamp 1000 2000 (by norm_num) (by norm_num)).2.1

/-! ## Lemmas about the Timeline Aligner -/

theorem overlapLen_nonneg (w : WSeg) (a : DSeg) : 0 ≤ overlapLen w a :=
  le_max_left _ _

/-- Full characterization of the `best_a_seg` scan: either nothing beat the
running maximum (result unchanged), or the result is the first element
attaining the overall maximal overlap among those beating the running
maximum. -/
theorem scanBest_result (w : WSeg) : ∀ (ds : List DSeg) (m : ℚ) (b : Option DSeg),
    (scanBest w ds m b = b ∧ ∀ d ∈ ds, overlapLen w d ≤ m)
    ∨ (∃ i a, ds.get? i = some a ∧ scanBest w ds m b = some a
        ∧ m < overlapLen w a
        ∧ (∀ d ∈ ds, overlapLen w d ≤ overlapLen w a)
        ∧ (∀ j, j < i → ∀ c, ds.get? j = some c →
            overlapLen w c ≤ m ∨ overlapLen w c < overlapLen w a)) := by
  intro ds
  induction ds with
  | nil => intro m b; left; exact ⟨rfl, by simp⟩
  | cons a rest ih =>
      intro m b
      by_cases hc : m < overlapLen w a
      · rw [scanBest, if_pos hc]
        rcases ih (overlapLen w a) (some a) with ⟨heq, hall⟩ | ⟨i, a', hget, heq, hlt, hbound, hprior⟩
        · right
          refine ⟨0, a, rfl, heq, hc, ?_, ?_⟩
          · intro d hd
            rcases List.mem_cons.mp hd with h | h
            · exact le_of_eq (by rw [h])
            · exact hall d h
          · intro j hj
            exact absurd hj (Nat.not_lt_zero j)
        · right
          refine ⟨i + 1, a', ?_, heq, lt_trans hc hlt, ?_, ?_⟩
          · exact hget
          · intro d hd
            rcases List.mem_cons.mp hd with h | h
            · exact le_of_lt (h ▸ hlt)
            · exact hbound d h
          · intro j hj c hgetc
            match j, hgetc with
            | 0, hgetc =>
                have hca : a = c := Option.some_injective _
                  (show some a = some c from hgetc)
                subst hca
                exact Or.inr hlt
            | j' + 1, hgetc =>
                rcases hprior j' (by omega) c hgetc with h | h
                · exact Or.inr (lt_of_le_of_lt h hlt)
                · exact Or.inr h
      · rw [scanBest, if_neg hc]
        rcases ih m b with ⟨heq, hall⟩ | ⟨i, a', hget, heq, hlt, hbound, hprior⟩
        · left
          refine ⟨heq, ?_⟩
          intro d hd
          rcases List.mem_cons.mp hd with h | h
          · exact h ▸ le_of_not_lt hc
          · exact hall d h
        · right
          refine ⟨i + 1, a', ?_, heq, hlt, ?_, ?_⟩
          · exact hget
          · intro d hd
            rcases List.mem_cons.mp hd with h | h
            · exact h ▸ le_trans (le_of_not_lt hc) (le_of_lt hlt)
            · exact hbound d h
          · intro j hj c hgetc
            match j, hgetc with
            | 0, hgetc =>
                have hca : a = c := Option.some_injective _
                  (show some a = some c from hgetc)
                subst hca
                exact Or.inl (le_of_not_lt hc)
            | j' + 1, hgetc => exact hprior j' (by omega) c hgetc

theorem bestMatch_eq_none_iff (w : WSeg) (ds : List DSeg) :
    bestMatch w ds = none ↔ ∀ d ∈ ds, overlapLen w d = 0 := by
  constructor
  · intro h
    rcases scanBest_result w ds 0 none with ⟨_, hall⟩ | ⟨i, a, _, heq, _, _, _⟩
    · intro d hd
      exact le_antisymm (hall d hd) (overlapLen_nonneg w d)
    · rw [bestMatch] at h
      rw [h] at heq
      exact absurd heq (by simp)
  · intro h
    rcases scanBest_result w ds 0 none with ⟨heq, _⟩ | ⟨i, a, hget, _, hlt, _, _⟩
    · exact heq
    · have := h a (List.get?_mem hget)
      rw [this] at hlt
      exact absurd hlt (lt_irrefl 0)

theorem bestMatch_some (w : WSeg) (ds : List DSeg) (a : DSeg)
    (h : bestMatch w ds = some a) : a ∈ ds ∧ 0 < overlapLen w a := by
  rcases scanBest_result w ds 0 none with ⟨heq, _⟩ | ⟨i, a', hget, heq, hlt, _, _⟩
  · rw [bestMatch] at h
    rw [heq] at h
    exact absurd h (by simp)
  · rw [bestMatch] at h
    rw [heq] at h
    cases Option.some_injective _ h
    exact ⟨List.get?_mem hget, hlt⟩

/-- The accumulator of `alignFold` is a prefix of the final output, and the
discard counter only grows. -/
theorem alignFold_append (ds : List DSeg) : ∀ (rest : List WSeg)
    (acc : List Utt) (disc : ℕ), ∃ out k,
    alignFold ds rest acc disc = (acc ++ out, disc + k) := by
  intro rest
  induction rest with
  | nil => intro acc disc; exact ⟨[], 0, by simp [alignFold]⟩
  | cons w tail ih =>
      intro acc disc
      cases h : alignOne acc.isEmpty w ds with
      | some u =>
          obtain ⟨out, k, heq⟩ := ih (acc ++ [u]) disc
          refine ⟨[u] ++ out, k, ?_⟩
          simp only [alignFold, h, heq, List.append_assoc]
      | none =>
          obtain ⟨out, k, heq⟩ := ih acc (disc + 1)
          refine ⟨out, k + 1, ?_⟩
          simp only [alignFold, h, heq, Prod.mk.injEq]
          exact ⟨by trivial, by omega⟩

theorem alignOne_some_iff (fl : Bool) (w : WSeg) (ds : List DSeg) :
    (∃ u, alignOne fl w ds = some u) ↔ discardP ds w = false := by
  rw [alignOne, discardP]
  cases h : bestMatch w ds with
  | none => simp
  | some a =>
      by_cases hs : a.speaker = ""
      · simp [hs]
      · simp [hs]

theorem alignOne_fields (fl : Bool) (w : WSeg) (ds : List DSeg) (u : Utt)
    (h : alignOne fl w ds = some u) : ∃ a, bestMatch w ds = some a
      ∧ a.speaker ≠ "" ∧ u.speaker = a.speaker ∧ u.text = w.text
      ∧ u.stop = w.stop := by
  cases hb : bestMatch w ds with
  | none =>
      simp only [alignOne, hb] at h
      exact absurd h (by simp)
  | some a =>
      simp only [alignOne, hb] at h
      by_cases hs : a.speaker = ""
      · simp only [if_pos hs] at h
        exact absurd h (by simp)
      · simp only [if_neg hs, Option.some.injEq] at h
        subst h
        exact ⟨a, rfl, hs, rfl, rfl, rfl⟩

theorem alignFold_mem_out (ds : List DSeg) : ∀ (rest : List WSeg)
    (acc : List Utt) (disc : ℕ) (w : WSeg), w ∈ rest →
    discardP ds w = false →
    ∃ u ∈ (alignFold ds rest acc disc).1, ∃ a, bestMatch w ds = some a
      ∧ u.speaker = a.speaker ∧ u.text = w.text ∧ u.stop = w.stop := by
  intro rest
  induction rest with
  | nil => intro acc disc w hw; exact absurd hw (List.not_mem_nil w)
  | cons w0 tail ih =>
      intro acc disc w hw hdisc
      rcases List.mem_cons.mp hw with heqw | htail
      · subst heqw
        obtain ⟨u, hu⟩ := (alignOne_some_iff acc.isEmpty w ds).mpr hdisc
        obtain ⟨a, hb, _, hspk, htxt, hstp⟩ := alignOne_fields _ w ds u hu
        obtain ⟨out, k, heq⟩ := alignFold_append ds tail (acc ++ [u]) disc
        refine ⟨u, ?_, a, hb, hspk, htxt, hstp⟩
        simp only [alignFold, hu, heq]
        simp
      · cases h : alignOne acc.isEmpty w0 ds with
        | some u0 =>
            simp only [alignFold, h]
            exact ih (acc ++ [u0]) disc w htail hdisc
        | none =>
            simp only [alignFold, h]
            exact ih acc (disc + 1) w htail hdisc

theorem alignFold_out_src (ds : List DSeg) : ∀ (rest : List WSeg)
    (acc : List Utt) (disc : ℕ) (u : Utt),
    u ∈ (alignFold ds rest acc disc).1 →
    u ∈ acc ∨ ∃ w ∈ rest, ∃ fl, alignOne fl w ds = some u := by
  intro rest
  induction rest with
  | nil => intro acc disc u hu; left; simpa [alignFold] using hu
  | cons w tail ih =>
      intro acc disc u hu
      cases h : alignOne acc.isEmpty w ds with
      | some u0 =>
          simp only [alignFold, h] at hu
          rcases ih (acc ++ [u0]) disc u hu with hacc | ⟨w', hw', fl, hfl⟩
          · rcases List.mem_append.mp hacc with h' | h'
            · exact Or.inl h'
            · right
              refine ⟨w, List.mem_cons_self w tail, acc.isEmpty, ?_⟩
              rw [h]
              simp only [List.mem_singleton] at h'
              rw [h']
          · exact Or.inr ⟨w', List.mem_cons_of_mem w hw', fl, hfl⟩
      | none =>
          simp only [alignFold, h] at hu
          rcases ih acc (disc + 1) u hu with hacc | ⟨w', hw', fl, hfl⟩
          · exact Or.inl hacc
          · exact Or.inr ⟨w', List.mem_cons_of_mem w hw', fl, hfl⟩

theorem alignFold_count (ds : List DSeg) : ∀ (rest : List WSeg)
    (acc : List Utt) (disc : ℕ),
    (alignFold ds rest acc disc).2 = disc + rest.countP (discardP ds)
    ∧ (alignFold ds rest acc disc).1.length + (alignFold ds rest acc disc).2
        = acc.length + disc + rest.length := by
  intro rest
  induction rest with
  | nil => intro acc disc; simp [alignFold]
  | cons w tail ih =>
      intro acc disc
      cases h : alignOne acc.isEmpty w ds with
      | some u =>
          have hd : discardP ds w = false :=
            (alignOne_some_iff acc.isEmpty w ds).mp ⟨u, h⟩
          obtain ⟨h1, h2⟩ := ih (acc ++ [u]) disc
          constructor
          · simp only [alignFold, h, h1, List.countP_cons, hd]
            simp
          · simp only [alignFold, h]
            simp only [List.length_append, List.length_cons, List.length_nil] at h2 ⊢
            omega
      | none =>
          have hd : discardP ds w = true := by
            by_contra hcon
            obtain ⟨u, hu⟩ := (alignOne_some_iff acc.isEmpty w ds).mpr
              (Bool.not_eq_true _ ▸ hcon)
            rw [h] at hu
            exact absurd hu (by simp)
          obtain ⟨h1, h2⟩ := ih acc (disc + 1)
          constructor
          · simp only [alignFold, h, h1, List.countP_cons, hd]
            simp
            omega
          · simp only [alignFold, h]
            simp only [List.length_cons] at h2 ⊢
            omega

/-- C3 counterexample: a text segment with positive overlap against exactly
one diarization segment, whose speaker label is the empty string. The claim
says the segment is assigned that speaker; the code's Python-truthiness test
`if best_speaker and best_a_seg:` discards it instead, so the aligned output
is empty. -/
theorem C3_counterexample :
    (align_speaker_labels [⟨0, 2, "hi"⟩] [⟨"", 0, 3⟩]).1 = []
    ∧ 0 < overlapLen ⟨0, 2, "hi"⟩ ⟨"", 0, 3⟩ := by
  constructor
  · have hov : (0 : ℚ) < overlapLen ⟨0, 2, "hi"⟩ ⟨"", 0, 3⟩ := by
      norm_num [overlapLen]
    have hb : bestMatch ⟨0, 2, "hi"⟩ [⟨"", 0, 3⟩] = some ⟨"", 0, 3⟩ := by
      simp only [bestMatch, scanBest, if_pos hov]
    simp [align_speaker_labels, alignFold, alignOne, hb]
  · norm_num [overlapLen]

/-- C3 (amended): for every text segment with positive overlap against at
least one diarization segment, the scan selects the first diarization segment
attaining the maximal overlap `max(0, min(end1,end2) - max(start1,start2))`;
*provided that segment's speaker label is non-empty* (Python truthiness of
`best_speaker`), the aligned output contains an utterance carrying that
speaker and the text segment's text and end; a maximal-overlap segment with
an empty speaker label causes the text segment to be discarded instead. -/
theorem C3_aligner_assignment (ws : List WSeg) (ds : List DSeg) (w : WSeg)
    (hw : w ∈ ws) (hpos : ∃ d ∈ ds, 0 < overlapLen w d) :
    ∃ i a, ds.get? i = some a ∧ bestMatch w ds = some a
      ∧ (∀ d ∈ ds, overlapLen w d ≤ overlapLen w a)
      ∧ (∀ j, j < i → ∀ c, ds.get? j = some c →
          overlapLen w c < overlapLen w a)
      ∧ (a.speaker ≠ "" →
          ∃ u ∈ (align_speaker_labels ws ds).1, u.speaker = a.speaker
            ∧ u.text = w.text ∧ u.stop = w.stop) := by
  obtain ⟨d0, hd0, hd0pos⟩ := hpos
  rcases scanBest_result w ds 0 none with ⟨_, hall⟩ | ⟨i, a, hget, heq, hlt, hbound, hprior⟩
  · exact absurd (hall d0 hd0) (not_le.mpr hd0pos)
  · refine ⟨i, a, hget, heq, hbound, ?_, ?_⟩
    · intro j hj c hgetc
      rcases hprior j hj c hgetc with h | h
      · exact lt_of_le_of_lt h hlt
      · exact h
    · intro hs
      have hbm : bestMatch w ds = some a := heq
      have hdisc : discardP ds w = false := by
        simp only [discardP, hbm]
        simp [hs]
      obtain ⟨u, hu, a', hb', hspk, htxt, hstp⟩ :=
        alignFold_mem_out ds ws [] 0 w hw hdisc
      rw [hbm] at hb'
      cases Option.some_injective _ hb'
      exact ⟨u, hu, hspk, htxt, hstp⟩

theorem C3_witness :
    ∃ i a, ([⟨"A", 0, 3⟩] : List DSeg).get? i = some a
      ∧ bestMatch ⟨0, 2, "hi"⟩ [⟨"A", 0, 3⟩] = some a
      ∧ (∀ d ∈ ([⟨"A", 0, 3⟩] : List DSeg),
          overlapLen ⟨0, 2, "hi"⟩ d ≤ overlapLen ⟨0, 2, "hi"⟩ a)
      ∧ (∀ j, j < i → ∀ c, ([⟨"A", 0, 3⟩] : List DSeg).get? j = some c →
          overlapLen ⟨0, 2, "hi"⟩ c < overlapLen ⟨0, 2, "hi"⟩ a)
      ∧ (a.speaker ≠ "" →
          ∃ u ∈ (align_speaker_labels [⟨0, 2, "hi"⟩] [⟨"A", 0, 3⟩]).1,
            u.speaker = a.speaker ∧ u.text = "hi" ∧ u.stop = 2) :=
  C3_aligner_assignment [⟨0, 2, "hi"⟩] [⟨"A", 0, 3⟩] ⟨0, 2, "hi"⟩
    (by simp) ⟨⟨"A", 0, 3⟩, by simp, by norm_num [overlapLen]⟩

/-- C4 counterexample: with one text segment overlapping one diarization
segment whose speaker label is empty, the discard counter reads 1 although
the number of zero-overlap text segments is 0, contradicting the claimed
equality. -/
theorem C4_counterexample :
    align_speaker_labels [⟨0, 1, "hi"⟩] [⟨"", 0, 1⟩] = ([], 1)
    ∧ 0 < overlapLen ⟨0, 1, "hi"⟩ ⟨"", 0, 1⟩ := by
  constructor
  · have hov : (0 : ℚ) < overlapLen ⟨0, 1, "hi"⟩ ⟨"", 0, 1⟩ := by
      norm_num [overlapLen]
    have hb : bestMatch ⟨0, 1, "hi"⟩ [⟨"", 0, 1⟩] = some ⟨"", 0, 1⟩ := by
      simp only [bestMatch, scanBest, if_pos hov]
    simp [align_speaker_labels, alignFold, alignOne, hb]
  · norm_num [overlapLen]

/-- C4 (amended): the Aligner never aborts (every text segment is either
emitted or counted), a zero-overlap text segment is always discarded and
never contributes to the output (every output utterance stems from a text
segment with a positive-overlap best match), and the discard count equals the
number of text segments whose scan found nothing *or* found a best segment
with a Python-falsy (empty) speaker label — only on inputs whose diarization
speakers are all non-empty does this coincide with the number of zero-overlap
segments. -/
theorem C4_aligner_loss (ws : List WSeg) (ds : List DSeg) :
    (align_speaker_labels ws ds).2 = ws.countP (discardP ds)
    ∧ (align_speaker_labels ws ds).1.length + (align_speaker_labels ws ds).2
        = ws.length
    ∧ (∀ w, (∀ d ∈ ds, overlapLen w d = 0) → discardP ds w = true)
    ∧ (∀ u ∈ (align_speaker_labels ws ds).1, ∃ w ∈ ws, ∃ a ∈ ds,
        bestMatch w ds = some a ∧ 0 < overlapLen w a
          ∧ u.speaker = a.speaker ∧ u.text = w.text) := by
  obtain ⟨h1, h2⟩ := alignFold_count ds ws [] 0
  refine ⟨by simpa [align_speaker_labels] using h1,
    by simpa [align_speaker_labels] using h2, ?_, ?_⟩
  · intro w hz
    rw [discardP, (bestMatch_eq_none_iff w ds).mpr hz]
  · intro u hu
    rcases alignFold_out_src ds ws [] 0 u hu with hacc | ⟨w, hw, fl, hfl⟩
    · exact absurd hacc (List.not_mem_nil u)
    · obtain ⟨a, hb, _, hspk, htxt, _⟩ := alignOne_fields fl w ds u hfl
      obtain ⟨hmem, hov⟩ := bestMatch_some w ds a hb
      exact ⟨w, hw, a, hmem, hb, hov, hspk, htxt⟩

theorem C4_witness :
    (align_speaker_labels [⟨0, 2, "hi"⟩] [⟨"A", 0, 3⟩]).1.length
      + (align_speaker_labels [⟨0, 2, "hi"⟩] [⟨"A", 0, 3⟩]).2
      = ([⟨0, 2, "hi"⟩] : List WSeg).length :=
  (C4_aligner_loss [⟨0, 2, "hi"⟩] [⟨"A", 0, 3⟩]).2.1

/-! ## Lemmas about the translation stage -/

theorem translateGo_length (oracle : ℕ → ℕ → ApiResult) :
    ∀ (ts : List TUtt) (i0 : ℕ), (translateGo oracle i0 ts).length = ts.length := by
  intro ts
  induction ts with
  | nil => intro i0; rfl
  | cons u rest ih =>
      intro i0
      simp only [translateGo, List.length_cons, ih (i0 + 1)]

theorem translateGo_get (oracle : ℕ → ℕ → ApiResult) :
    ∀ (ts : List TUtt) (i0 i : ℕ),
    (translateGo oracle i0 ts).get? i = (ts.get? i).map (fun u =>
      if u.text = "" then u
      else { u with translation := (translateItem (oracle (i0 + i)) u.translation).1 }) := by
  intro ts
  induction ts with
  | nil => intro i0 i; simp [translateGo]
  | cons u rest ih =>
      intro i0 i
      match i with
      | 0 => simp [translateGo]
      | i + 1 =>
          simp only [translateGo, List.get?_cons_succ]
          rw [ih (i0 + 1) i]
          have harith : i0 + 1 + i = i0 + (i + 1) := by omega
          rw [harith]

/-- C9: a rate-limited translation request is retried after waiting, with the
wait doubling each time, for at most 5 attempts; if all 5 attempts are
rate-limited the waits are exactly `[1, 2, 4, 8, 16]` and the empty string is
recorded as the translation; a non-rate-limit API error aborts only that item
(its translation field keeps its previous — absent — value), and the batch
continues: every utterance of the transcript is processed, each one
independently of the others, and empty-text utterances are skipped. -/
theorem C9_translate_policy (oracle : ℕ → ℕ → ApiResult) (ts : List TUtt) :
    (translate oracle ts).length = ts.length
    ∧ (∀ o : ℕ → ApiResult, ∀ old : Option String,
        (∀ k, k < maxRetries → o k = ApiResult.rateLimited) →
        translateItem o old = (some "", [1, 2, 4, 8, 16]))
    ∧ (∀ o : ℕ → ApiResult, ∀ old : Option String, ∀ j, j < maxRetries →
        (∀ k, k < j → o k = ApiResult.rateLimited) →
        o j = ApiResult.apiError → (translateItem o old).1 = old)
    ∧ (∀ i u, ts.get? i = some u → u.text ≠ "" →
        (translate oracle ts).get? i
          = some { u with translation := (translateItem (oracle i) u.translation).1 })
    ∧ (∀ i u, ts.get? i = some u → u.text = "" →
        (translate oracle ts).get? i = some u) := by
  refine ⟨translateGo_length oracle ts 0, ?_, ?_, ?_, ?_⟩
  · intro o old h
    have h0 := h 0 (by norm_num [maxRetries])
    have h1 := h 1 (by norm_num [maxRetries])
    have h2 := h 2 (by norm_num [maxRetries])
    have h3 := h 3 (by norm_num [maxRetries])
    have h4 := h 4 (by norm_num [maxRetries])
    simp [translateItem, maxRetries, translateLoop, h0, h1, h2, h3, h4]
  · intro o old j hj hpre herr
    have h5 : maxRetries = 5 := rfl
    rw [h5] at hj
    interval_cases j
    · simp [translateItem, maxRetries, translateLoop, herr]
    · have h0 := hpre 0 (by norm_num)
      simp [translateItem, maxRetries, translateLoop, h0, herr]
    · have h0 := hpre 0 (by norm_num)
      have h1 := hpre 1 (by norm_num)
      simp [translateItem, maxRetries, translateLoop, h0, h1, herr]
    · have h0 := hpre 0 (by norm_num)
      have h1 := hpre 1 (by norm_num)
      have h2 := hpre 2 (by norm_num)
      simp [translateItem, maxRetries, translateLoop, h0, h1, h2, herr]
    · have h0 := hpre 0 (by norm_num)
      have h1 := hpre 1 (by norm_num)
      have h2 := hpre 2 (by norm_num)
      have h3 := hpre 3 (by norm_num)
      simp [translateItem, maxRetries, translateLoop, h0, h1, h2, h3, herr]
  · intro i u hu hne
    rw [translate, translateGo_get oracle ts 0 i, hu]
    simp [hne]
  · intro i u hu he
    rw [translate, translateGo_get oracle ts 0 i, hu]
    simp [he]

theorem C9_witness :
    translateItem (fun _ => ApiResult.rateLimited) none
      = (some "", [1, 2, 4, 8, 16]) :=
  (C9_translate_policy (fun _ _ => ApiResult.rateLimited) []).2.1
    (fun _ => ApiResult.rateLimited) none (fun _ _ => rfl)

/-! ## Claims about the Duration Fitter -/

/-- C1 counterexample: an utterance with target duration 600 ms and a
non-empty (1000 ms) voice-converted clip. The raw ratio 0.6 is clamped up to
0.75 and the stretch output (750 ms) is exported without any trim, so the
written clip exceeds `target_ms` — refuting the claimed trim guarantee for
`time_stretch_vc`. -/
theorem C1_counterexample :
    (0 : ℚ) < 1000 ∧ time_stretch_vc_len 600 1000 = 750
    ∧ (600 : ℚ) < time_stretch_vc_len 600 1000 := by
  norm_num [time_stretch_vc_len, stretchedLen, clampRatio, minRatio, maxRatio,
    max_def, min_def]

/-- C1 (amended): `time_stretch_vc` writes the stretch output with the
clamped ratio as-is (no trim step), so for a non-empty clip its duration is
`orig_ms * clamp(target_ms / orig_ms)`, never padded, and it stays within
`target_ms` exactly when the raw ratio is at least the lower clamp bound
(0.75); the legacy `time_stretch` path is the one that hard-trims — its clip
never exceeds the target duration and is never padded beyond the stretch
output. -/
theorem C1_duration_fit (target orig : ℚ) (ho : 0 < orig) :
    time_stretch_vc_len target orig = orig * clampRatio (target / orig)
    ∧ (time_stretch_vc_len target orig ≤ target ↔ minRatio ≤ target / orig)
    ∧ (∀ L d : ℚ, 0 < d → 0 ≤ L →
        time_stretch_len L d ≤ L
          ∧ time_stretch_len L d ≤ stretchedLen d (L / d)) := by
  have ht : orig * (target / orig) = target := by
    field_simp
  refine ⟨rfl, ⟨?_, ?_⟩, ?_⟩
  · intro hle
    by_contra hlt
    push_neg at hlt
    have hcl : clampRatio (target / orig) = minRatio := by
      rw [clampRatio,
        min_eq_right (le_of_lt (lt_trans hlt (by norm_num [minRatio, maxRatio]))),
        max_eq_left (le_of_lt hlt)]
    rw [time_stretch_vc_len, stretchedLen, hcl] at hle
    have hmul := mul_lt_mul_of_pos_left hlt ho
    rw [ht] at hmul
    linarith
  · intro hge
    have hclle : clampRatio (target / orig) ≤ target / orig :=
      max_le hge (min_le_right _ _)
    rw [time_stretch_vc_len, stretchedLen]
    calc orig * clampRatio (target / orig)
        ≤ orig * (target / orig) := mul_le_mul_of_nonneg_left hclle (le_of_lt ho)
      _ = target := ht
  · intro L d _ _
    exact ⟨min_le_right _ _, min_le_left _ _⟩

theorem C1_witness :
    time_stretch_vc_len 600 1000 ≤ 600 ↔ minRatio ≤ (600 : ℚ) / 1000 :=
  (C1_duration_fit 600 1000 (by norm_num)).2.1

/-! ## Claims about the Timeline Compositor's placement arithmetic -/

theorem combineAudioLoop_eq_foldl (clips : String → ℕ → Option (List ℤ)) :
    ∀ (ts : List Utt) (counts : String → ℕ) (fin : List ℤ),
    combineAudioLoop clips ts counts fin
      = (combineLoop ts counts).foldl (fun fin p =>
          match clips p.speaker p.idx with
          | none => fin
          | some c => overlayAt fin (pySliceTo c p.dur) p.pos) fin := by
  intro ts
  induction ts with
  | nil => intro counts fin; rfl
  | cons u rest ih =>
      intro counts fin
      cases h : clips u.speaker (counts u.speaker + 1) with
      | none =>
          simp only [combineAudioLoop, combineLoop, List.foldl_cons, h]
          exact ih _ _
      | some c =>
          simp only [combineAudioLoop, combineLoop, List.foldl_cons, h]
          exact ih _ _

theorem combineLoop_mem (ts : List Utt) : ∀ (counts : String → ℕ),
    ∀ p ∈ combineLoop ts counts, ∃ u ∈ ts,
      p.pos = pyInt (u.start * 1000) ∧ p.dur = pyInt ((u.stop - u.start) * 1000) := by
  induction ts with
  | nil => intro counts p hp; exact absurd hp (List.not_mem_nil p)
  | cons u rest ih =>
      intro counts p hp
      rcases List.mem_cons.mp hp with h | h
      · exact ⟨u, List.mem_cons_self u rest, by rw [h], by rw [h]⟩
      · obtain ⟨v, hv, h1, h2⟩ := ih _ p h
        exact ⟨v, List.mem_cons_of_mem u hv, h1, h2⟩

/-- C2 counterexample: `combine_audio` computes the overlay position with
Python `int()` (truncation), not `round()`: for `start = 0.0006 s` the code
overlays at 0 ms while `round(start*1000)` is 1 ms; and it truncates the clip
to `int((end-start)*1000)` (here 1 ms), which differs from
`end_ms - start_ms` (here 2 ms). -/
theorem C2_counterexample :
    (combinePlacements [⟨3/5000, 1, "A", "x"⟩]).map Placement.pos = [0]
    ∧ pyRound ((3/5000 : ℚ) * 1000) = 1
    ∧ (combinePlacements [⟨3/5000, 1/500, "A", "x"⟩]).map Placement.dur = [1]
    ∧ pyInt ((1/500 : ℚ) * 1000) - pyInt ((3/5000 : ℚ) * 1000) = 2 := by
  refine ⟨?_, ?_, ?_, ?_⟩
  · norm_num [combinePlacements, combineLoop, pyInt]
  · norm_num [pyRound]
  · norm_num [combinePlacements, combineLoop, pyInt]
  · norm_num [pyInt]

/-- C2 (amended): `combine_audio` overlays each utterance's clip at absolute
position `int(start*1000)` (truncation toward zero, not rounding),
truncating the clip to at most `int((end-start)*1000)` milliseconds (computed
from the duration directly, not as `end_ms - start_ms`); the mixing loop
equals the fold of these per-utterance overlays; and the clip it overlays is
read from the `tts_vc` directory (the voice-converted, *unstretched* clip) —
a path always different from the one `time_stretch_vc` writes its stretched
output to. -/
theorem C2_compositor_placement (clips : String → ℕ → Option (List ℤ))
    (bg : List ℤ) (ts : List Utt) :
    combine_audio clips bg ts
      = (combinePlacements ts).foldl (fun fin p =>
          match clips p.speaker p.idx with
          | none => fin
          | some c => overlayAt fin (pySliceTo c p.dur) p.pos) bg
    ∧ (∀ p ∈ combinePlacements ts, ∃ u ∈ ts,
        p.pos = pyInt (u.start * 1000) ∧ p.dur = pyInt ((u.stop - u.start) * 1000))
    ∧ (∀ (c : List ℤ) (n : ℤ), 0 ≤ n → ((pySliceTo c n).length : ℤ) ≤ n)
    ∧ (∀ (c : List ℤ) (n : ℤ), (pySliceTo c n).length ≤ c.length)
    ∧ (∀ s i, combineVcPath s i ≠ stretchedOutPath s i) := by
  refine ⟨combineAudioLoop_eq_foldl clips ts (fun _ => 0) bg,
    combineLoop_mem ts (fun _ => 0), ?_, ?_, ?_⟩
  · intro c n hn
    rw [pySliceTo, if_pos hn]
    calc ((c.take n.toNat).length : ℤ) ≤ (n.toNat : ℤ) := by
          exact_mod_cast List.length_take_le n.toNat c
      _ = n := Int.toNat_of_nonneg hn
  · intro c n
    rw [pySliceTo]
    by_cases hn : 0 ≤ n
    · rw [if_pos hn, List.length_take]; exact min_le_right _ _
    · rw [if_neg hn, List.length_take]; exact min_le_right _ _
  · intro s i h
    have hl := congrArg String.length h
    simp only [combineVcPath, stretchedOutPath, String.length_append] at hl
    have e1 : "speaker_audio/speaker_".length = 22 := rfl
    have e2 : "/tts_vc/".length = 8 := rfl
    have e3 : "_utt_".length = 5 := rfl
    have e4 : "_vc.wav".length = 7 := rfl
    have e5 : "/tts_vc_stretched/".length = 18 := rfl
    have e6 : "_vc_stretched.wav".length = 17 := rfl
    rw [e1, e2, e3, e4, e5, e6] at hl
    omega

theorem C2_witness :
    ∀ s i, combineVcPath s i ≠ stretchedOutPath s i :=
  (C2_compositor_placement (fun _ _ => none) [] []).2.2.2.2

/-! ## Lemmas about the cross-stage keying -/

theorem ttsAssignLoop_eq : ∀ (ts : List Utt) (counts : String → ℕ),
    ttsAssignLoop ts counts = splitAssignLoop ts counts := by
  intro ts
  induction ts with
  | nil => intro counts; rfl
  | cons u rest ih =>
      intro counts
      simp only [ttsAssignLoop, splitAssignLoop, ih]

theorem combineAssignLoop_eq : ∀ (ts : List Utt) (counts : String → ℕ),
    combineAssignLoop ts counts = splitAssignLoop ts counts := by
  intro ts
  induction ts with
  | nil => intro counts; rfl
  | cons u rest ih =>
      intro counts
      simp only [combineAssignLoop, splitAssignLoop, ih]

theorem splitAssignLoop_mem : ∀ (ts : List Utt) (counts : String → ℕ)
    (s : String) (k : ℕ) (u : Utt),
    ((s, k), u) ∈ splitAssignLoop ts counts ↔
      ∃ j, k = counts s + 1 + j ∧ (bySpeaker ts s).get? j = some u := by
  intro ts
  induction ts with
  | nil => intro counts s k u; simp [splitAssignLoop, bySpeaker]
  | cons v rest ih =>
      intro counts s k u
      by_cases hsv : v.speaker = s
      · subst hsv
        have hby : bySpeaker (v :: rest) v.speaker
            = v :: bySpeaker rest v.speaker := by
          simp [bySpeaker, List.filter_cons]
        constructor
        · intro h
          rcases List.mem_cons.mp h with hhead | htail
          · have hk : v.speaker = v.speaker ∧ k = counts v.speaker + 1 ∧ u = v := by
              simpa [Prod.mk.injEq] using hhead
            refine ⟨0, by omega, ?_⟩
            rw [hby, hk.2.2]
            rfl
          · obtain ⟨j, hj, hget⟩ := (ih _ v.speaker k u).mp htail
            have hj' : k = counts v.speaker + 1 + 1 + j := by simpa using hj
            refine ⟨j + 1, by omega, ?_⟩
            rw [hby]
            simpa using hget
        · rintro ⟨j, hj, hget⟩
          rw [hby] at hget
          match j, hj, hget with
          | 0, hj, hget =>
              have hu : v = u := by simpa using hget
              have hk : k = counts v.speaker + 1 := by omega
              subst hu
              subst hk
              exact List.mem_cons_self _ _
          | j' + 1, hj, hget =>
              have hget' : (bySpeaker rest v.speaker).get? j' = some u := by
                simpa using hget
              refine List.mem_cons_of_mem _ ((ih _ v.speaker k u).mpr ⟨j', ?_, hget'⟩)
              simp
              omega
      · have hby : bySpeaker (v :: rest) s = bySpeaker rest s := by
          simp [bySpeaker, List.filter_cons, hsv]
        have hcounts : (if s = v.speaker then counts v.speaker + 1 else counts s)
            = counts s := if_neg (fun h => hsv h.symm)
        constructor
        · intro h
          rcases List.mem_cons.mp h with hhead | htail
          · exfalso
            apply hsv
            have := (Prod.mk.injEq _ _ _ _).mp
              ((Prod.mk.injEq _ _ _ _).mp hhead).1
            exact this.1.symm
          · obtain ⟨j, hj, hget⟩ := (ih _ s k u).mp htail
            rw [hcounts] at hj
            rw [hby]
            exact ⟨j, hj, hget⟩
        · rintro ⟨j, hj, hget⟩
          rw [hby] at hget
          refine List.mem_cons_of_mem _ ((ih _ s k u).mpr ⟨j, ?_, hget⟩)
          rw [hcounts]
          exact hj

theorem speakersFold_mem : ∀ (ts : List Utt) (acc : List String) (s : String),
    s ∈ ts.foldl (fun acc u =>
        if u.speaker ∈ acc then acc else acc ++ [u.speaker]) acc
      ↔ s ∈ acc ∨ ∃ u ∈ ts, u.speaker = s := by
  intro ts
  induction ts with
  | nil => intro acc s; simp
  | cons v rest ih =>
      intro acc s
      rw [List.foldl_cons, ih]
      by_cases hv : v.speaker ∈ acc
      · rw [if_pos hv]
        constructor
        · rintro (h | ⟨u, hu, hs⟩)
          · exact Or.inl h
          · exact Or.inr ⟨u, List.mem_cons_of_mem _ hu, hs⟩
        · rintro (h | ⟨u, hu, hs⟩)
          · exact Or.inl h
          · rcases List.mem_cons.mp hu with h' | h'
            · subst h'
              exact Or.inl (hs ▸ hv)
            · exact Or.inr ⟨u, h', hs⟩
      · rw [if_neg hv]
        constructor
        · rintro (h | ⟨u, hu, hs⟩)
          · rcases List.mem_append.mp h with h' | h'
            · exact Or.inl h'
            · exact Or.inr ⟨v, List.mem_cons_self _ _,
                (List.mem_singleton.mp h').symm⟩
          · exact Or.inr ⟨u, List.mem_cons_of_mem _ hu, hs⟩
        · rintro (h | ⟨u, hu, hs⟩)
          · exact Or.inl (List.mem_append.mpr (Or.inl h))
          · rcases List.mem_cons.mp hu with h' | h'
            · subst h'
              exact Or.inl (List.mem_append.mpr
                (Or.inr (List.mem_singleton.mpr hs.symm)))
            · exact Or.inr ⟨u, h', hs⟩

theorem enumFrom_mem_iff {α : Type} : ∀ (l : List α) (n k : ℕ) (a : α),
    (k, a) ∈ List.enumFrom n l ↔ n ≤ k ∧ l.get? (k - n) = some a := by
  intro l
  induction l with
  | nil => intro n k a; simp
  | cons x rest ih =>
      intro n k a
      rw [List.enumFrom, List.mem_cons, ih (n + 1) k a]
      constructor
      · rintro (h | ⟨hle, hget⟩)
        · have h1 : k = n ∧ a = x := by simpa [Prod.mk.injEq] using h
          refine ⟨le_of_eq h1.1.symm, ?_⟩
          rw [h1.1, Nat.sub_self]
          simp [h1.2]
        · refine ⟨by omega, ?_⟩
          have h2 : k - n = (k - (n + 1)) + 1 := by omega
          rw [h2]
          simpa using hget
      · rintro ⟨hle, hget⟩
        by_cases hk : k = n
        · subst hk
          rw [Nat.sub_self] at hget
          have hx : x = a := by simpa using hget
          exact Or.inl (by rw [hx])
        · right
          have h2 : k - n = (k - (n + 1)) + 1 := by omega
          rw [h2] at hget
          exact ⟨by omega, by simpa using hget⟩

theorem stretchAssign_mem (ts : List Utt) (s : String) (k : ℕ) (u : Utt) :
    ((s, k), u) ∈ stretchAssign ts ↔
      ∃ j, k = 1 + j ∧ (bySpeaker ts s).get? j = some u := by
  rw [stretchAssign]
  constructor
  · intro h
    rw [List.mem_flatMap] at h
    obtain ⟨s', hs', hmem⟩ := h
    rw [List.mem_map] at hmem
    obtain ⟨⟨p1, p2⟩, hp, heq⟩ := hmem
    simp only [Prod.mk.injEq] at heq
    obtain ⟨⟨he1, he2⟩, he3⟩ := heq
    rw [he1, he2, he3] at hp
    obtain ⟨h1, hget⟩ := (enumFrom_mem_iff _ 1 k u).mp hp
    exact ⟨k - 1, by omega, hget⟩
  · rintro ⟨j, hj, hget⟩
    rw [List.mem_flatMap]
    have hu : u ∈ bySpeaker ts s := List.get?_mem hget
    have hu' : u ∈ ts ∧ u.speaker = s := by
      have := List.mem_filter.mp hu
      exact ⟨this.1, by simpa using this.2⟩
    refine ⟨s, ?_, ?_⟩
    · rw [speakersInOrder]
      exact (speakersFold_mem ts [] s).mpr (Or.inr ⟨u, hu'.1, hu'.2⟩)
    · rw [List.mem_map]
      refine ⟨(k, u), ?_, rfl⟩
      rw [enumFrom_mem_iff]
      refine ⟨by omega, ?_⟩
      have : k - 1 = j := by omega
      rw [this]
      exact hget

/-- C10: the Utterance Slicer (`split_audio_by_utterance`), the TTS stage
(`tts`) and the Timeline Compositor (`combine_audio`) assign per-speaker
indices by the identical running-counter rule (their keyings are equal as
association lists), the key `(S, k)` denotes exactly the k-th utterance of
speaker `S` in transcript order, and the VC stretch stage
(`time_stretch_vc`), which groups by speaker and enumerates from 1, produces
exactly the same key-to-utterance associations — so every stage resolves a
clip filename key to the same utterance. -/
theorem C10_keying (ts : List Utt) :
    ttsAssign ts = splitAssign ts
    ∧ combineAssign ts = splitAssign ts
    ∧ (∀ s k u, ((s, k), u) ∈ splitAssign ts ↔
        ∃ j, k = 1 + j ∧ (bySpeaker ts s).get? j = some u)
    ∧ (∀ s k u, ((s, k), u) ∈ stretchAssign ts ↔ ((s, k), u) ∈ splitAssign ts) := by
  have hsp : ∀ s k u, ((s, k), u) ∈ splitAssign ts ↔
      ∃ j, k = 1 + j ∧ (bySpeaker ts s).get? j = some u := by
    intro s k u
    rw [splitAssign, splitAssignLoop_mem]
  refine ⟨ttsAssignLoop_eq ts _, combineAssignLoop_eq ts _, hsp, ?_⟩
  intro s k u
  rw [stretchAssign_mem]
  exact (hsp s k u).symm

theorem C10_witness :
    ttsAssign [(⟨0, 1, "A", "a"⟩ : Utt)] = splitAssign [(⟨0, 1, "A", "a"⟩ : Utt)] :=
  (C10_keying [⟨0, 1, "A", "a"⟩]).1

/-! ## Lemmas for the Compositor non-overlap / order-independence claim -/

/-- `a` ends no later than `b` starts: the two intervals do not overlap and
`a` comes first. -/
def nonOverlapRel (a b : Utt) : Prop := a.stop ≤ b.start

/-- Overlay work item `p` ends (position plus truncated clip length) no later
than `q` starts. -/
def leftOf (p q : List ℤ × ℤ) : Prop := p.2 + (p.1.length : ℤ) ≤ q.2

/-- Two overlay work items touch disjoint sample ranges. -/
def disjointCl (p q : List ℤ × ℤ) : Prop :=
  p.2 + (p.1.length : ℤ) ≤ q.2 ∨ q.2 + (q.1.length : ℤ) ≤ p.2

theorem mergeLoop_preserve (g : ℚ) : ∀ (l : List Utt) (prev : Utt),
    List.Chain' nonOverlapRel (prev :: l) →
    (∀ u ∈ prev :: l, u.start ≤ u.stop ∧ 0 ≤ u.start) →
    List.Chain' nonOverlapRel (mergeLoop g prev l)
    ∧ (∀ u ∈ mergeLoop g prev l, u.start ≤ u.stop ∧ 0 ≤ u.start) := by
  intro l
  induction l with
  | nil =>
      intro prev _ hwf
      refine ⟨List.chain'_singleton prev, fun u hu => hwf u ?_⟩
      simp only [mergeLoop] at hu
      simpa using hu
  | cons curr rest ih =>
      intro prev hch hwf
      have hr1 : prev.stop ≤ curr.start := (List.chain'_cons.mp hch).1
      have hch' : List.Chain' nonOverlapRel (curr :: rest) :=
        (List.chain'_cons.mp hch).2
      have hwfp := hwf prev (List.mem_cons_self _ _)
      have hwfc := hwf curr (List.mem_cons_of_mem _ (List.mem_cons_self _ _))
      by_cases hc : curr.speaker = prev.speaker ∧ curr.start - prev.stop < g
      · rw [mergeLoop, if_pos hc]
        set prev' : Utt := { prev with stop := curr.stop, text := prev.text.trimRight ++ " " ++ curr.text.trimLeft } with hprev'
        have hch2 : List.Chain' nonOverlapRel (prev' :: rest) := by
          cases rest with
          | nil => exact List.chain'_singleton prev'
          | cons x t =>
              exact List.chain'_cons.mpr
                ⟨(List.chain'_cons.mp hch').1, (List.chain'_cons.mp hch').2⟩
        have hwf2 : ∀ u ∈ prev' :: rest, u.start ≤ u.stop ∧ 0 ≤ u.start := by
          intro u hu
          rcases List.mem_cons.mp hu with h | h
          · subst h
            refine ⟨?_, hwfp.2⟩
            calc prev.start ≤ prev.stop := hwfp.1
              _ ≤ curr.start := hr1
              _ ≤ curr.stop := hwfc.1
          · exact hwf u (List.mem_cons_of_mem _ (List.mem_cons_of_mem _ h))
        exact ih prev' hch2 hwf2
      · rw [mergeLoop, if_neg hc]
        obtain ⟨ihc, ihw⟩ := ih curr hch'
          (fun u hu => hwf u (List.mem_cons_of_mem _ hu))
        constructor
        · obtain ⟨h0, t0, heq, _, hst⟩ := mergeLoop_head g rest curr
          rw [heq]
          rw [heq] at ihc
          exact List.chain'_cons.mpr ⟨by rw [nonOverlapRel, hst]; exact hr1, ihc⟩
        · intro u hu
          rcases List.mem_cons.mp hu with h | h
          · subst h; exact hwfp
          · exact ihw u h

theorem chain_head_le_all : ∀ (l : List Utt) (u : Utt),
    List.Chain' nonOverlapRel (u :: l) →
    (∀ v ∈ u :: l, v.start ≤ v.stop) →
    ∀ v ∈ l, u.stop ≤ v.start := by
  intro l
  induction l with
  | nil => intro u _ _ v hv; exact absurd hv (List.not_mem_nil v)
  | cons w t ih =>
      intro u hch hwf v hv
      have h1 : u.stop ≤ w.start := (List.chain'_cons.mp hch).1
      rcases List.mem_cons.mp hv with h | h
      · subst h; exact h1
      · have h2 := ih w (List.chain'_cons.mp hch).2
          (fun x hx => hwf x (List.mem_cons_of_mem _ hx)) v h
        calc u.stop ≤ w.start := h1
          _ ≤ w.stop := hwf w (List.mem_cons_of_mem _ (List.mem_cons_self _ _))
          _ ≤ v.start := h2

theorem chain_pairwise : ∀ (l : List Utt),
    List.Chain' nonOverlapRel l →
    (∀ v ∈ l, v.start ≤ v.stop) →
    List.Pairwise nonOverlapRel l := by
  intro l
  induction l with
  | nil => intro _ _; exact List.Pairwise.nil
  | cons u t ih =>
      intro hch hwf
      exact List.pairwise_cons.mpr
        ⟨chain_head_le_all t u hch hwf,
          ih (List.Chain'.tail hch)
            (fun v hv => hwf v (List.mem_cons_of_mem _ hv))⟩

theorem pyInt_of_nonneg (q : ℚ) (h : 0 ≤ q) : pyInt q = ⌊q⌋ := if_pos h

theorem floor_add_floor_le (a b : ℚ) : ⌊a⌋ + ⌊b⌋ ≤ ⌊a + b⌋ := by
  rw [Int.le_floor]
  push_cast
  exact add_le_add (Int.floor_le a) (Int.floor_le b)

theorem pySliceTo_length_le {α : Type} (c : List α) (n : ℤ) (hn : 0 ≤ n) :
    ((pySliceTo c n).length : ℤ) ≤ n := by
  rw [pySliceTo, if_pos hn]
  calc ((c.take n.toNat).length : ℤ) ≤ (n.toNat : ℤ) := by
        exact_mod_cast List.length_take_le n.toNat c
    _ = n := Int.toNat_of_nonneg hn

theorem resolvedLoop_src (clips : String → ℕ → Option (List ℤ)) :
    ∀ (ts : List Utt) (counts : String → ℕ),
    ∀ p ∈ resolvedLoop clips ts counts, ∃ u ∈ ts, ∃ c,
      p = (pySliceTo c (pyInt ((u.stop - u.start) * 1000)), pyInt (u.start * 1000)) := by
  intro ts
  induction ts with
  | nil => intro counts p hp; exact absurd hp (List.not_mem_nil p)
  | cons u rest ih =>
      intro counts p hp
      cases h : clips u.speaker (counts u.speaker + 1) with
      | none =>
          simp only [resolvedLoop, h] at hp
          obtain ⟨v, hv, c, hc⟩ := ih _ p hp
          exact ⟨v, List.mem_cons_of_mem _ hv, c, hc⟩
      | some c =>
          simp only [resolvedLoop, h] at hp
          rcases List.mem_cons.mp hp with hhead | htail
          · exact ⟨u, List.mem_cons_self _ _, c, hhead⟩
          · obtain ⟨v, hv, c', hc'⟩ := ih _ p htail
            exact ⟨v, List.mem_cons_of_mem _ hv, c', hc'⟩

/-- For a well-formed utterance, the overlay interval of its (truncated) clip
ends no later than `⌊stop * 1000⌋`. -/
theorem placement_bound (u : Utt) (c : List ℤ)
    (hwf : u.start ≤ u.stop) (hpos : 0 ≤ u.start) :
    pyInt (u.start * 1000)
      + ((pySliceTo c (pyInt ((u.stop - u.start) * 1000))).length : ℤ)
      ≤ ⌊u.stop * 1000⌋ := by
  have h1 : (0 : ℚ) ≤ u.start * 1000 := by positivity
  have h2 : (0 : ℚ) ≤ (u.stop - u.start) * 1000 := by nlinarith
  have h3 : (0 : ℤ) ≤ pyInt ((u.stop - u.start) * 1000) := by
    rw [pyInt_of_nonneg _ h2]
    exact Int.floor_nonneg.mpr h2
  have h4 := pySliceTo_length_le c (pyInt ((u.stop - u.start) * 1000)) h3
  rw [pyInt_of_nonneg _ h1, pyInt_of_nonneg _ h2] at *
  have h5 := floor_add_floor_le (u.start * 1000) ((u.stop - u.start) * 1000)
  have h6 : u.start * 1000 + (u.stop - u.start) * 1000 = u.stop * 1000 := by ring
  rw [h6] at h5
  omega

theorem resolved_pairwise (clips : String → ℕ → Option (List ℤ)) :
    ∀ (ts : List Utt) (counts : String → ℕ),
    List.Pairwise nonOverlapRel ts →
    (∀ u ∈ ts, u.start ≤ u.stop ∧ 0 ≤ u.start) →
    List.Pairwise leftOf (resolvedLoop clips ts counts) := by
  intro ts
  induction ts with
  | nil => intro counts _ _; exact List.Pairwise.nil
  | cons u rest ih =>
      intro counts hp hwf
      have hp1 : ∀ v ∈ rest, nonOverlapRel u v := (List.pairwise_cons.mp hp).1
      have hp2 : List.Pairwise nonOverlapRel rest := (List.pairwise_cons.mp hp).2
      have hwfu := hwf u (List.mem_cons_self _ _)
      have hwf' : ∀ v ∈ rest, v.start ≤ v.stop ∧ 0 ≤ v.start :=
        fun v hv => hwf v (List.mem_cons_of_mem _ hv)
      cases h : clips u.speaker (counts u.speaker + 1) with
      | none =>
          simp only [resolvedLoop, h]
          exact ih _ hp2 hwf'
      | some c =>
          simp only [resolvedLoop, h]
          refine List.pairwise_cons.mpr ⟨?_, ih _ hp2 hwf'⟩
          intro q hq
          obtain ⟨v, hv, c', hc'⟩ := resolvedLoop_src clips rest _ q hq
          have hvwf := hwf' v hv
          have hb := placement_bound u c hwfu.1 hwfu.2
          have hposv : (0 : ℚ) ≤ v.start * 1000 := by
            have := hvwf.2; positivity
          have hmono : ⌊u.stop * 1000⌋ ≤ ⌊v.start * 1000⌋ :=
            Int.floor_le_floor (by
              have := hp1 v hv
              rw [nonOverlapRel] at this
              nlinarith)
          rw [leftOf, hc']
          simp only
          rw [pyInt_of_nonneg _ hposv]
          calc pyInt (u.start * 1000)
                + ((pySliceTo c (pyInt ((u.stop - u.start) * 1000))).length : ℤ)
              ≤ ⌊u.stop * 1000⌋ := hb
            _ ≤ ⌊v.start * 1000⌋ := hmono

theorem overlayAt_length (bg c : List ℤ) (p : ℤ) :
    (overlayAt bg c p).length = bg.length := by
  simp [overlayAt]

theorem overlayAt_getElem (bg c : List ℤ) (p : ℤ) (i : ℕ)
    (h : i < (overlayAt bg c p).length) :
    (overlayAt bg c p)[i]
      = if p ≤ (i : ℤ) ∧ (i : ℤ) < p + c.length then
          satAdd16 (bg.getD i 0) (c.getD ((i : ℤ) - p).toNat 0)
        else bg.getD i 0 := by
  simp only [overlayAt, List.getElem_map, List.getElem_range]

/-- Overlays onto disjoint sample ranges commute: this is where the
non-overlap hypothesis is used, because the saturating 16-bit mix is not
associative-commutative across a shared sample. -/
theorem overlayAt_comm (bg c1 c2 : List ℤ) (p1 p2 : ℤ)
    (hdisj : p1 + (c1.length : ℤ) ≤ p2 ∨ p2 + (c2.length : ℤ) ≤ p1) :
    overlayAt (overlayAt bg c1 p1) c2 p2
      = overlayAt (overlayAt bg c2 p2) c1 p1 := by
  apply List.ext_getElem
  · simp [overlayAt_length]
  · intro i h1 h2
    have hib : i < bg.length := by
      simpa [overlayAt_length] using h1
    rw [overlayAt_getElem _ _ _ _ h1, overlayAt_getElem _ _ _ _ h2]
    have g1 : (overlayAt bg c1 p1).getD i 0
        = if p1 ≤ (i : ℤ) ∧ (i : ℤ) < p1 + c1.length then
            satAdd16 (bg.getD i 0) (c1.getD ((i : ℤ) - p1).toNat 0)
          else bg.getD i 0 := by
      rw [List.getD_eq_getElem _ _ (by rw [overlayAt_length]; exact hib)]
      exact overlayAt_getElem bg c1 p1 i (by rw [overlayAt_length]; exact hib)
    have g2 : (overlayAt bg c2 p2).getD i 0
        = if p2 ≤ (i : ℤ) ∧ (i : ℤ) < p2 + c2.length then
            satAdd16 (bg.getD i 0) (c2.getD ((i : ℤ) - p2).toNat 0)
          else bg.getD i 0 := by
      rw [List.getD_eq_getElem _ _ (by rw [overlayAt_length]; exact hib)]
      exact overlayAt_getElem bg c2 p2 i (by rw [overlayAt_length]; exact hib)
    rw [g1, g2]
    by_cases hc1 : p1 ≤ (i : ℤ) ∧ (i : ℤ) < p1 + (c1.length : ℤ)
    <;> by_cases hc2 : p2 ≤ (i : ℤ) ∧ (i : ℤ) < p2 + (c2.length : ℤ)
    · exfalso
      obtain ⟨a1, a2⟩ := hc1
      obtain ⟨b1, b2⟩ := hc2
      rcases hdisj with h | h <;> omega
    · simp [hc1, hc2]
    · simp [hc1, hc2]
    · simp [hc1, hc2]

theorem overlayAll_perm (ps qs : List (List ℤ × ℤ)) (hperm : ps.Perm qs) :
    ∀ (bg : List ℤ), List.Pairwise disjointCl ps →
      overlayAll bg ps = overlayAll bg qs := by
  induction hperm with
  | nil => intro bg _; rfl
  | cons x h ih =>
      intro bg hp
      simp only [overlayAll, List.foldl_cons]
      exact ih (overlayAt bg x.1 x.2) (List.pairwise_cons.mp hp).2
  | swap x y l =>
      intro bg hp
      have hd : disjointCl y x :=
        (List.pairwise_cons.mp hp).1 x (List.mem_cons_self _ _)
      simp only [overlayAll, List.foldl_cons]
      rw [overlayAt_comm bg y.1 x.1 y.2 x.2 hd]
  | trans h1 h2 ih1 ih2 =>
      intro bg hp
      have hp2 := (h1.pairwise_iff (fun hxy => Or.symm hxy)).mp hp
      exact (ih1 bg hp).trans (ih2 bg hp2)

theorem combineAudioLoop_eq_overlayAll (clips : String → ℕ → Option (List ℤ)) :
    ∀ (ts : List Utt) (counts : String → ℕ) (bg : List ℤ),
    combineAudioLoop clips ts counts bg
      = overlayAll bg (resolvedLoop clips ts counts) := by
  intro ts
  induction ts with
  | nil => intro counts bg; rfl
  | cons u rest ih =>
      intro counts bg
      cases h : clips u.speaker (counts u.speaker + 1) with
      | none =>
          simp only [combineAudioLoop, resolvedLoop, h]
          exact ih _ _
      | some c =>
          simp only [combineAudioLoop, resolvedLoop, h, overlayAll,
            List.foldl_cons]
          exact ih _ _

/-- C8 counterexample: a time-sorted Timeline accepted unchanged by the
Merger in which two utterances of different speakers overlap: the Merger
only coalesces same-speaker runs, it never resolves cross-speaker interval
overlaps, so "no two utterances' intervals overlap" fails for its output. -/
theorem C8_counterexample :
    merge_segments (9/20) [(⟨0, 5, "A", "a"⟩ : Utt), ⟨1, 2, "B", "b"⟩]
        = some [⟨0, 5, "A", "a"⟩, ⟨1, 2, "B", "b"⟩]
    ∧ (⟨0, 5, "A", "a"⟩ : Utt).start ≤ (⟨1, 2, "B", "b"⟩ : Utt).start
    ∧ ¬((⟨0, 5, "A", "a"⟩ : Utt).stop ≤ (⟨1, 2, "B", "b"⟩ : Utt).start
        ∨ (⟨1, 2, "B", "b"⟩ : Utt).stop ≤ (⟨0, 5, "A", "a"⟩ : Utt).start) := by
  refine ⟨?_, by norm_num, ?_⟩
  · have hcond : ¬((⟨1, 2, "B", "b"⟩ : Utt).speaker
        = (⟨0, 5, "A", "a"⟩ : Utt).speaker
        ∧ (⟨1, 2, "B", "b"⟩ : Utt).start - (⟨0, 5, "A", "a"⟩ : Utt).stop
            < 9/20) := by
      intro hfoo
      exact absurd hfoo.1 (by decide)
    simp only [merge_segments, mergeLoop, if_neg hcond]
  · intro h
    rcases h with h | h <;> norm_num at h

/-- C8 (amended): for a Timeline produced by the Merger from a time-sorted
input whose utterance intervals are pairwise non-overlapping (and well
formed: `start ≤ stop`, `0 ≤ start`), no two output utterances' intervals
overlap; consequently the Compositor's overlay work items land on pairwise
disjoint sample ranges, the code's mixing loop equals folding those overlays
in transcript order, and performing them in any other order (any permutation
of the work items) yields the same final mixed waveform byte-for-byte. -/
theorem C8_compositor_nonoverlap (g : ℚ) (xs ys : List Utt)
    (clips : String → ℕ → Option (List ℤ)) (bg : List ℤ)
    (ps : List (List ℤ × ℤ))
    (hchain : List.Chain' nonOverlapRel xs)
    (hwf : ∀ u ∈ xs, u.start ≤ u.stop ∧ 0 ≤ u.start)
    (hm : merge_segments g xs = some ys)
    (hperm : (resolvedOverlays clips ys).Perm ps) :
    List.Pairwise (fun a b => a.stop ≤ b.start ∨ b.stop ≤ a.start) ys
    ∧ combine_audio clips bg ys = overlayAll bg (resolvedOverlays clips ys)
    ∧ overlayAll bg ps = overlayAll bg (resolvedOverlays clips ys) := by
  match xs, hm with
  | x :: rest, hm =>
    rw [merge_segments] at hm
    have hys : ys = mergeLoop g x rest := by
      injection hm with h'
      exact h'.symm
    obtain ⟨hchain', hwf'⟩ := mergeLoop_preserve g rest x hchain hwf
    rw [← hys] at hchain' hwf'
    have hpair : List.Pairwise nonOverlapRel ys :=
      chain_pairwise ys hchain' (fun v hv => (hwf' v hv).1)
    have hres : List.Pairwise leftOf (resolvedOverlays clips ys) :=
      resolved_pairwise clips ys (fun _ => 0) hpair hwf'
    have hresd : List.Pairwise disjointCl (resolvedOverlays clips ys) :=
      hres.imp (fun h => Or.inl h)
    refine ⟨hpair.imp (fun h => Or.inl h), ?_, ?_⟩
    · exact combineAudioLoop_eq_overlayAll clips ys (fun _ => 0) bg
    · exact (overlayAll_perm _ _ hperm bg hresd).symm

theorem C8_witness :
    List.Pairwise
      (fun a b => Utt.stop a ≤ Utt.start b ∨ Utt.stop b ≤ Utt.start a)
      [(⟨0, 1, "A", "a"⟩ : Utt)] :=
  (C8_compositor_nonoverlap (9/20) [⟨0, 1, "A", "a"⟩] [⟨0, 1, "A", "a"⟩]
    (fun _ _ => none) [] (resolvedOverlays (fun _ _ => none) [⟨0, 1, "A", "a"⟩])
    (by simp)
    (by
      intro u hu
      rw [List.mem_singleton] at hu
      subst hu
      exact ⟨by norm_num, by norm_num⟩)
    rfl (List.Perm.refl _)).1

end AutoDubbing
